import Mathlib

/-!
Verification development for the `hardcpy` backup tool.

The definitions below are a shallow embedding of `src/main.rs` and
`src/commands.rs`:

* the directory discovery engines `singlethread` (explicit work queue with
  the fd-pressure fallback) and `_multithread_discover` (recursive fan-out,
  aggregated through channels) are modelled as pure functions over a
  finite directory tree in which the outcome of every `fs::read_dir` call
  (success, fd-exhaustion error 24, other error) is recorded on the node;
* the path rewriting of `_copy_file` is modelled over lists of path
  components;
* the sqlite catalog (tables `Backups` and `Files`) is modelled as lists
  of rows, with the SQL statements of the source translated one by one;
* `verify` from `commands.rs` is modelled as a fold over the rows returned
  by its `SELECT`, with the file system as a map from path to content and
  the sha256 hex digest abstracted as a function from content to string.
-/

namespace Hardcpy

/-! ## Directory trees

An `FsEntry` is one `DirEntry` as seen by the traversal: a file with its
byte size, or a directory.  For a directory we record the outcome the
program observes when it calls `fs::read_dir` on it: `none` means the call
succeeds and yields the listed entries, `some .fd` is an error with raw OS
code 24 (fd exhaustion), `some .other` is any other error. -/

inductive OpenErr where
  | fd
  | other
deriving DecidableEq, Repr

inductive FsEntry where
  | file (path : String) (size : Nat)
  | dir (path : String) (err : Option OpenErr) (entries : List FsEntry)
deriving Repr

/-- Total number of nodes in a listing; used as a termination measure. -/
def weightList : List FsEntry → Nat
  | [] => 0
  | .file _ _ :: es => 1 + weightList es
  | .dir _ _ ds :: es => 1 + weightList ds + weightList es

/-- The files reachable from a listing via directory entries that do not
themselves error: the set both discovery strategies are meant to find. -/
def reachFilesList : List FsEntry → List (String × Nat)
  | [] => []
  | .file p s :: es => (p, s) :: reachFilesList es
  | .dir _ none ds :: es => reachFilesList ds ++ reachFilesList es
  | .dir _ (some _) _ :: es => reachFilesList es

/-- `true` when no directory anywhere in the listing fails with the
fd-exhaustion error (OS error 24). -/
def noFdList : List FsEntry → Bool
  | [] => true
  | .file _ _ :: es => noFdList es
  | .dir _ (some .fd) _ :: _ => false
  | .dir _ _ ds :: es => noFdList ds && noFdList es

/-! ## Sequential discovery (`singlethread`, main.rs:437-623)

The Rust loop keeps a `VecDeque` of open `ReadDir` handles
(`pop_front` / `push_back`), a `file_list` of discovered files
(`push_front`, drained by `pop_front`), a running byte total and, for the
fd-pressure fallback, a `path_list` of files already copied.  On an open
error with code 24 it pops (and thereby discards) up to five queued
directory handles, drains `file_list` by copying every file in it, and
continues iterating the current directory.  On any other open error it
only logs and skips the entry.  Copies are modelled as succeeding, so the
error fields of the conclusion stay empty. -/

structure SeqAcc where
  fileList : List (String × Nat)
  sizeBytes : Nat
  pathList : List String
deriving Repr, DecidableEq

lemma sum_drop_le (l : List Nat) (n : Nat) : (l.drop n).sum ≤ l.sum := by
  conv_rhs => rw [← List.take_append_drop n l]
  rw [List.sum_append]
  omega

/-- One pass of the `while let Some(curr_dir) = stack.pop_front()` loop:
`stack` is the queue of still-unprocessed directory listings, `cur` the
remainder of the listing currently being iterated. -/
def seqGo : List (List FsEntry) → List FsEntry → SeqAcc → SeqAcc
  | [], [], acc => acc
  | d :: rest, [], acc => seqGo rest d acc
  | stack, .file p s :: rest, acc =>
      seqGo stack rest
        { acc with fileList := (p, s) :: acc.fileList, sizeBytes := acc.sizeBytes + s }
  | stack, .dir _ none ds :: rest, acc => seqGo (stack ++ [ds]) rest acc
  | stack, .dir _ (some .fd) _ :: rest, acc =>
      seqGo (stack.drop 5) rest
        { acc with pathList := acc.pathList ++ acc.fileList.map Prod.fst, fileList := [] }
  | stack, .dir _ (some .other) _ :: rest, acc => seqGo stack rest acc
termination_by stack cur _ => ((stack.map weightList).sum + weightList cur, stack.length)
decreasing_by
  all_goals simp_wf
  all_goals simp only [Prod.lex_iff, weightList, List.map_append, List.sum_append,
    List.map_cons, List.sum_cons, List.map_nil, List.sum_nil, List.map_drop,
    List.length_cons, List.length_drop, List.length_append, List.length_nil]
  · omega
  · omega
  · omega
  · have h := sum_drop_le (List.map weightList stack) 5
    omega
  · omega

/-! ## Parallel discovery (`_multithread_discover`, main.rs:773-830)

Every worker iterates its directory listing: a file produces one
`FileSize` event, one `TotalCount(1)` event and one entry on the
`files_list` channel; a directory whose `read_dir` fails (with any error,
error 24 included — the parallel path has no fd fallback) produces one
`Error` event; a directory that opens spawns a worker for its listing.
The accumulation loop in `_multithread` adds counts and byte sizes and
appends errors and paths, so the aggregate is the order-independent sum
below. -/

structure MtAcc where
  count : Nat
  sizeBytes : Nat
  errors : List String
  files : List (String × Nat)
deriving Repr, DecidableEq

def mtDiscoverList : List FsEntry → MtAcc
  | [] => ⟨0, 0, [], []⟩
  | .file p s :: es =>
      let b := mtDiscoverList es
      ⟨1 + b.count, s + b.sizeBytes, b.errors, (p, s) :: b.files⟩
  | .dir _ none ds :: es =>
      let a := mtDiscoverList ds
      let b := mtDiscoverList es
      ⟨a.count + b.count, a.sizeBytes + b.sizeBytes, a.errors ++ b.errors, a.files ++ b.files⟩
  | .dir p (some _) _ :: es =>
      let b := mtDiscoverList es
      ⟨b.count, b.sizeBytes, p :: b.errors, b.files⟩

/-! ## `FileSize` and `Conclusion` (main.rs:27-108) -/

structure FileSize where
  gb : Nat
  mb : Nat
  kb : Nat
  byte : Nat
deriving Repr, DecidableEq

/-- `FileSize::update`: kb, mb, gb recomputed from the byte count. -/
def FileSize.update (f : FileSize) : FileSize :=
  let kb := f.byte / 1024
  let mb := kb / 1024
  let gb := mb / 1024
  { gb := gb, mb := mb, kb := kb, byte := f.byte }

/-- `FileSize::new`. -/
def FileSize.new : FileSize := ⟨0, 0, 0, 0⟩

structure Conclusion where
  total_count : Nat
  error_count : Nat
  error_list : List String
  total_size : FileSize
  path_list : List String
deriving Repr, DecidableEq

/-- The `Conclusion` returned by `singlethread` for a root listing: after
the discovery loop, `total_count` is the *remaining* length of `file_list`
(files drained by the fd fallback are gone from it), the copy loop then
moves `file_list` into `path_list` behind the fallback-copied paths, and
`total_size.update()` is called once at the end.  Copies succeed in this
model, so `error_count` is 0.  `path_list` keeps the source path of each
copied file (the destination member of the Rust pair is the rewritten
path, modelled separately by `copyFileDestPath`). -/
def singlethreadConclusion (root : List FsEntry) : Conclusion :=
  let s := seqGo [] root ⟨[], 0, []⟩
  { total_count := s.fileList.length
    error_count := 0
    error_list := []
    total_size := FileSize.update ⟨0, 0, 0, s.sizeBytes⟩
    path_list := s.pathList ++ s.fileList.map Prod.fst }

/-- The `Conclusion` returned by `multithread` for a root listing, with
every spawned copy succeeding: the discovery events give the count, byte
total and error list; the copy phase turns each discovered file into a
`PathCouple` event. -/
def multithreadConclusion (root : List FsEntry) : Conclusion :=
  let m := mtDiscoverList root
  { total_count := m.count
    error_count := m.errors.length
    error_list := m.errors
    total_size := FileSize.update ⟨0, 0, 0, m.sizeBytes⟩
    path_list := m.files.map Prod.fst }

/-! ## Path rewriting (`_copy_file`, main.rs:832-870)

A path is a list of components.  `Component.volume` stands for Rust's
`Component::Prefix` (Windows drive/UNC part). -/

inductive Component where
  | volume
  | rootDir
  | curDir
  | parentDir
  | normal (s : String)
deriving DecidableEq, Repr

/-- The `for component in full_path.components()` loop of `_copy_file`,
with `found` the current value of the `found_src` flag: a `Normal`
component equal to `src_name` is pushed and sets the flag; `Prefix`,
`RootDir` and `CurDir` are always dropped; anything else is pushed exactly
when the flag is already set. -/
def rewriteLoop (srcName : String) : Bool → List Component → List Component
  | _, [] => []
  | found, .normal x :: rest =>
      if x = srcName then .normal x :: rewriteLoop srcName true rest
      else if found then .normal x :: rewriteLoop srcName found rest
      else rewriteLoop srcName found rest
  | found, .volume :: rest => rewriteLoop srcName found rest
  | found, .rootDir :: rest => rewriteLoop srcName found rest
  | found, .curDir :: rest => rewriteLoop srcName found rest
  | found, .parentDir :: rest =>
      if found then .parentDir :: rewriteLoop srcName found rest
      else rewriteLoop srcName found rest

/-- Components kept by the copying phase of the loop (everything except
`Prefix`, `RootDir`, `CurDir`). -/
def keepComp : Component → Bool
  | .volume => false
  | .rootDir => false
  | .curDir => false
  | _ => true

/-- The `path` variable of `_copy_file` after the loop and the empty-path
fallback: `if path.components().count() == 0 { path.push("root/") }`. -/
def copyFileRelPath (srcName : String) (fullPath : List Component) : List Component :=
  let path := rewriteLoop srcName false fullPath
  if path.length = 0 then [.normal "root"] else path

/-- The destination path `_copy_file` copies to: `dest.join(&path)`, then
`pop()` (dropping the last component, the file-name slot), then
`join(file_name)` where `fileName` is `entry.file_name()`, the last
component of the entry's full path. -/
def copyFileDestPath (dest : List Component) (srcName : String)
    (fullPath : List Component) (fileName : String) : List Component :=
  (dest ++ copyFileRelPath srcName fullPath).dropLast ++ [.normal fileName]

/-! ## The catalog (sqlite tables `Backups` and `Files`, main.rs:178-199)

Rows are modelled as records, a table as the list of its rows.  The
`Files` table's primary key is the pair `(source, dest)` — it does not
include `backup_id` — and the `Backups` primary key is `id`. -/

structure BackupRow where
  id : Nat
  source : String
  dest : String
  compression : Option String
deriving Repr, DecidableEq

structure FileRow where
  backup_id : Nat
  source : String
  dest : String
  sha256 : String
deriving Repr, DecidableEq

structure Catalog where
  backups : List BackupRow
  files : List FileRow
deriving Repr, DecidableEq

/-- `INSERT OR REPLACE INTO Files ...` (main.rs:307-317): any row with the
same `(source, dest)` primary key is deleted, then the new row inserted. -/
def putFile (c : Catalog) (r : FileRow) : Catalog :=
  { c with
    files := (c.files.filter fun f => ¬(f.source = r.source ∧ f.dest = r.dest)) ++ [r] }

/-- The hashing pass of `_copy` (main.rs:294-319): for every
`(from, to)` pair in `conclusion.path_list`, insert-or-replace a `Files`
row for backup `h` whose digest is the sha256 of the source file's bytes;
`digestOf` abstracts that read-and-hash as a function of the source path. -/
def hashingPass (c : Catalog) (h : Nat) (digestOf : String → String)
    (pathList : List (String × String)) : Catalog :=
  pathList.foldl (fun c p => putFile c ⟨h, p.1, p.2, digestOf p.1⟩) c

/-- `SELECT dest FROM Backups WHERE id = ?1` (commands.rs:159-164). -/
def selectBackupDest (c : Catalog) (id : Nat) : Option String :=
  (c.backups.find? fun b => b.id == id).map (·.dest)

/-- `DELETE FROM Backups WHERE id = ?1` (`_delete_entry`,
commands.rs:228-236); the Boolean is `rows_affected > 0`. -/
def deleteEntry (c : Catalog) (id : Nat) : Catalog × Bool :=
  ({ c with backups := c.backups.filter fun b => ¬b.id = id },
   c.backups.any fun b => b.id == id)

/-- `delete` (commands.rs:158-188): look the backup's `dest` up; if the id
is unknown, report and return with the catalog untouched.  Otherwise call
`fs::remove_dir_all(dest)` — its error, if any, is printed and ignored —
and then `_delete_entry`.  The returned option is the path on which the
directory-tree removal was attempted. -/
def delete (c : Catalog) (id : Nat) : Catalog × Option String :=
  match selectBackupDest c id with
  | none => (c, none)
  | some dest => ((deleteEntry c id).1, some dest)

/-! ## `verify` (commands.rs:11-121)

The file system is a map from path to file content; `hash` abstracts the
chunked sha256-and-hex-format computation of the loop body (lowercase hex
of the file's full byte stream).  One loop iteration over a `Files` row:

* `real_count += 1`;
* `File::open(&entry.to)`: if the destination is absent, run
  `fs::copy(&entry.from, &entry.to)` — on error push it on `error_list`
  and `continue`, on success `copied += 1` and reopen the destination;
* hash the destination's bytes and compare the hex digest to the
  catalogued `entry.sha256` with `!=` (exact string comparison);
* on mismatch `fs::copy(entry.from, entry.to)` — on error push and
  `continue`, on success `copied += 1`;
* `verified += 1`.

`fs::copy` is modelled as succeeding exactly when the source path exists,
and then making the destination's content equal to the source's. -/

def Disk : Type := String → Option String

def diskWrite (d : Disk) (p : String) (c : String) : Disk :=
  fun q => if q = p then some c else d q

structure VerifyState where
  disk : Disk
  verified : Nat
  real_count : Nat
  copied : Nat
  error_list : List String

/-- The tail of the loop body from `let mut hasher = ...` on, given the
content `c` the opened destination file will yield. -/
def verifyHashCheck (hash : String → String) (st : VerifyState) (e : FileRow)
    (c : String) : VerifyState :=
  if hash c ≠ e.sha256 then
    match st.disk e.source with
    | none => { st with error_list := st.error_list ++ ["copy failed"] }
    | some cs =>
        { st with
          disk := diskWrite st.disk e.dest cs
          copied := st.copied + 1
          verified := st.verified + 1 }
  else { st with verified := st.verified + 1 }

/-- One full iteration of the `for entry in iter` loop of `verify`. -/
def verifyStep (hash : String → String) (st : VerifyState) (e : FileRow) : VerifyState :=
  let st1 : VerifyState := { st with real_count := st.real_count + 1 }
  match st1.disk e.dest with
  | some c => verifyHashCheck hash st1 e c
  | none =>
      match st1.disk e.source with
      | none => { st1 with error_list := st1.error_list ++ ["copy failed"] }
      | some c =>
          verifyHashCheck hash
            { st1 with disk := diskWrite st1.disk e.dest c, copied := st1.copied + 1 } e c

def verifyList (hash : String → String) : VerifyState → List FileRow → VerifyState
  | st, [] => st
  | st, e :: es => verifyList hash (verifyStep hash st e) es

/-- `SELECT source, dest, sha256 FROM Files WHERE backup_id = ?1`
(commands.rs:16-28). -/
def listFilesQuery (c : Catalog) (id : Nat) : List FileRow :=
  c.files.filter fun f => f.backup_id == id

/-- `verify(conn, id)`: fold the loop over the selected rows.  The
function only ever reads the catalog — the source contains no `INSERT`,
`UPDATE` or `DELETE` — so the catalog comes back as it went in. -/
def verifyRun (c : Catalog) (id : Nat) (hash : String → String) (d : Disk) :
    VerifyState × Catalog :=
  (verifyList hash ⟨d, 0, 0, 0, []⟩ (listFilesQuery c id), c)

/-! ## Claim C1: discovery finds every reachable file exactly once

The fd-pressure fallback of `singlethread` (main.rs:484-538) runs
`for _ in 0..5 { stack.pop_front(); }`: five queued `ReadDir` handles are
popped and dropped, so every file under those five directories is lost —
they did not error, yet they are never discovered, never copied and never
counted.  The tree below exhibits it: the root lists six fine directories
holding one file each and then a directory whose open fails with error
24.  When the fallback fires, the six subdirectory handles are queued;
five are discarded, so sequential discovery finds one file where six are
reachable (the parallel strategy finds all six). -/

def c1Tree : List FsEntry :=
  [ .dir "A" none [.file "fA" 1], .dir "B" none [.file "fB" 1], .dir "C" none [.file "fC" 1],
    .dir "D" none [.file "fD" 1], .dir "E" none [.file "fE" 1], .dir "F" none [.file "fF" 1],
    .dir "X" (some .fd) [] ]

/-- Claim C1, evaluation at the failing input: in `c1Tree` the file `fA`
is reachable through directories that do not error, yet after the
fd-pressure fallback fires the sequential pipeline neither lists it in
its conclusion nor counts it — `total_count` is 1 against 6 reachable
files, while the parallel pipeline counts all 6.  The queued, non-erroring
subtrees dropped by `stack.pop_front()` are lost, contradicting the
claimed invariant. -/
theorem fd_fallback_drops_queued_subtrees :
    ("fA", 1) ∈ reachFilesList c1Tree ∧
    (reachFilesList c1Tree).length = 6 ∧
    (singlethreadConclusion c1Tree).total_count = 1 ∧
    "fA" ∉ (singlethreadConclusion c1Tree).path_list ∧
    (multithreadConclusion c1Tree).total_count = 6 := by
  refine ⟨?_, ?_, ?_, ?_, ?_⟩
  · simp [reachFilesList, c1Tree]
  · simp [reachFilesList, c1Tree]
  · simp [singlethreadConclusion, c1Tree, seqGo]
  · simp [singlethreadConclusion, c1Tree, seqGo]
  · simp [multithreadConclusion, c1Tree, mtDiscoverList]

/-! ## Claim C3: the path rewriter -/

lemma rewriteLoop_true (srcName : String) (l : List Component) :
    rewriteLoop srcName true l = l.filter keepComp := by
  induction l with
  | nil => simp [rewriteLoop]
  | cons c rest ih =>
      cases c with
      | normal x =>
          by_cases h : x = srcName <;> simp [rewriteLoop, keepComp, h, ih]
      | volume => simp [rewriteLoop, keepComp, ih]
      | rootDir => simp [rewriteLoop, keepComp, ih]
      | curDir => simp [rewriteLoop, keepComp, ih]
      | parentDir => simp [rewriteLoop, keepComp, ih]

lemma rewriteLoop_false_of_not_mem (srcName : String) (l : List Component)
    (h : Component.normal srcName ∉ l) : rewriteLoop srcName false l = [] := by
  induction l with
  | nil => simp [rewriteLoop]
  | cons c rest ih =>
      have hc : c ≠ Component.normal srcName := fun hc => h (hc ▸ List.mem_cons_self c rest)
      have hrest : Component.normal srcName ∉ rest := fun hr => h (List.mem_cons_of_mem c hr)
      cases c with
      | normal x =>
          have hx : x ≠ srcName := fun hx => hc (by rw [hx])
          simp [rewriteLoop, hx, ih hrest]
      | volume => simp [rewriteLoop, ih hrest]
      | rootDir => simp [rewriteLoop, ih hrest]
      | curDir => simp [rewriteLoop, ih hrest]
      | parentDir => simp [rewriteLoop, ih hrest]

/-- Claim C3, counterexample to the "placed under dest/root/" part: with
source name `src`, a path in which `src` never occurs as a component is
rewritten to the single literal component `root` — but `_copy_file` then
pops the *last* component of `dest.join(path)` as the file-name slot, so
the `root` component is popped off again and the file lands at
`dest/a.txt`, not `dest/root/a.txt`. -/
theorem copyFile_fallback_no_root_cx :
    copyFileDestPath [Component.normal "dest"] "src"
        [Component.rootDir, Component.normal "a.txt"] "a.txt"
      = [Component.normal "dest", Component.normal "a.txt"] ∧
    Component.normal "root" ∉
      copyFileDestPath [Component.normal "dest"] "src"
        [Component.rootDir, Component.normal "a.txt"] "a.txt" := by
  decide

/-- Claim C3 (amended): scanning components in order, the rewriter copies
the first component equal to the source name and all subsequent
components, dropping volume/root/current-dir components unconditionally
(first conjunct).  When the source name never occurs as a component the
rewritten relative path is the single literal component `root`; since the
destination-path construction then pops that lone component as the
file-name slot, the file is placed at `dest/<file_name>` directly — the
destination path does *not* carry a `root/` component. -/
theorem copyFile_rewrite_spec (srcName fileName : String)
    (l1 l2 l dest : List Component) :
    (Component.normal srcName ∉ l1 →
      rewriteLoop srcName false (l1 ++ Component.normal srcName :: l2) =
        Component.normal srcName :: l2.filter keepComp) ∧
    (Component.normal srcName ∉ l →
      copyFileRelPath srcName l = [Component.normal "root"] ∧
      copyFileDestPath dest srcName l fileName = dest ++ [Component.normal fileName]) := by
  constructor
  · intro h1
    induction l1 with
    | nil => simp [rewriteLoop, rewriteLoop_true]
    | cons c rest ih =>
        have hc : c ≠ Component.normal srcName := fun hc => h1 (hc ▸ List.mem_cons_self c rest)
        have hrest : Component.normal srcName ∉ rest := fun hr => h1 (List.mem_cons_of_mem c hr)
        cases c with
        | normal x =>
            have hx : x ≠ srcName := fun hx => hc (by rw [hx])
            simpa [rewriteLoop, hx] using ih hrest
        | volume => simpa [rewriteLoop] using ih hrest
        | rootDir => simpa [rewriteLoop] using ih hrest
        | curDir => simpa [rewriteLoop] using ih hrest
        | parentDir => simpa [rewriteLoop] using ih hrest
  · intro h2
    have hrel : copyFileRelPath srcName l = [Component.normal "root"] := by
      simp [copyFileRelPath, rewriteLoop_false_of_not_mem srcName l h2]
    refine ⟨hrel, ?_⟩
    simp [copyFileDestPath, hrel]

/-- Witness for `copyFile_rewrite_spec` at concrete inputs. -/
theorem copyFile_rewrite_spec_witness :
    (Component.normal "src" ∉ [Component.rootDir]) ∧
    rewriteLoop "src" false
        ([Component.rootDir] ++ Component.normal "src" ::
          [Component.curDir, Component.normal "f.txt"]) =
      Component.normal "src" :: [Component.curDir, Component.normal "f.txt"].filter keepComp ∧
    (Component.normal "src" ∉ [Component.rootDir, Component.normal "a.txt"]) ∧
    copyFileRelPath "src" [Component.rootDir, Component.normal "a.txt"] =
      [Component.normal "root"] ∧
    copyFileDestPath [Component.normal "d"] "src"
        [Component.rootDir, Component.normal "a.txt"] "a.txt" =
      [Component.normal "d"] ++ [Component.normal "a.txt"] := by
  refine ⟨by decide, ?_, by decide, ?_, ?_⟩
  · exact (copyFile_rewrite_spec "src" "f.txt" [Component.rootDir]
      [Component.curDir, Component.normal "f.txt"] [] []).1 (by decide)
  · exact ((copyFile_rewrite_spec "src" "a.txt" [] []
      [Component.rootDir, Component.normal "a.txt"] [Component.normal "d"]).2 (by decide)).1
  · exact ((copyFile_rewrite_spec "src" "a.txt" [] []
      [Component.rootDir, Component.normal "a.txt"] [Component.normal "d"]).2 (by decide)).2

/-! ## Claim C2: `delete` and the file records

`delete` (commands.rs:158-188) looks up the destination, attempts
`fs::remove_dir_all`, and then runs only `DELETE FROM Backups WHERE id =
?1`.  No statement anywhere in the program deletes from the `Files`
table, and the schema declares no foreign key, so the file records of the
deleted backup stay in the catalog. -/

def c2Cat : Catalog :=
  ⟨[⟨1, "srcRoot", "destRoot", none⟩], [⟨1, "srcRoot/f", "destRoot/f", "ab"⟩]⟩

/-- Claim C2, counterexample to the cascading-deletion part: after
`delete 1` on a catalog holding backup 1 and one of its file records, the
backup row is gone and the removal of `destRoot` was attempted, but the
file record with `backup_id = 1` is still in the catalog. -/
theorem delete_leaves_file_rows_cx :
    (delete c2Cat 1).1.backups = [] ∧
    (delete c2Cat 1).2 = some "destRoot" ∧
    (⟨1, "srcRoot/f", "destRoot/f", "ab"⟩ : FileRow) ∈ (delete c2Cat 1).1.files := by
  decide

/-- Claim C2 (amended): for a catalogued backup id, `delete` removes the
Backup record from the catalog and attempts removal of the destination
directory tree (errors are reported, not fatal, with catalog removal
still performed) — but the `FileRow`s whose `backup_id` equals the id are
*not* removed: the `Files` table is left exactly as it was. -/
theorem delete_removes_backup_keeps_files (c : Catalog) (id : Nat) (d0 : String)
    (h : selectBackupDest c id = some d0) :
    (delete c id).2 = some d0 ∧
    (∀ b ∈ (delete c id).1.backups, b.id ≠ id) ∧
    (delete c id).1.files = c.files := by
  refine ⟨by simp [delete, h], ?_, by simp [delete, h, deleteEntry]⟩
  intro b hb
  simp only [delete, h, deleteEntry] at hb
  have := (List.mem_filter.mp hb).2
  simpa using this

/-- Witness for `delete_removes_backup_keeps_files` at a concrete
catalog. -/
theorem delete_removes_backup_keeps_files_witness :
    selectBackupDest c2Cat 1 = some "destRoot" ∧
    (delete c2Cat 1).2 = some "destRoot" ∧
    (∀ b ∈ (delete c2Cat 1).1.backups, b.id ≠ 1) ∧
    (delete c2Cat 1).1.files = c2Cat.files :=
  ⟨by decide,
   (delete_removes_backup_keeps_files c2Cat 1 "destRoot" (by decide)).1,
   (delete_removes_backup_keeps_files c2Cat 1 "destRoot" (by decide)).2.1,
   (delete_removes_backup_keeps_files c2Cat 1 "destRoot" (by decide)).2.2⟩

/-! ## Claim C9: when is a `FileRow` removed or replaced?

The `Files` primary key is `(source, dest)` — `backup_id` is not part of
it — and the hashing pass inserts with `INSERT OR REPLACE`.  A create run
for a *different* backup id whose pair collides therefore replaces the
other backup's record.  (Backup deletion, for its part, removes no file
record at all, see claim C2.) -/

def c9Cat : Catalog := ⟨[], [⟨1, "s", "d", "h1"⟩]⟩

/-- Claim C9, counterexample: catalog holds the record `(1, s, d, h1)` of
backup 1; the cataloguing pass of a create run for backup 2 whose file
list contains the same `(s, d)` pair replaces it — backup 1's record is
gone. -/
theorem putFile_replaces_other_backup_cx :
    (⟨1, "s", "d", "h1"⟩ : FileRow) ∉
      (hashingPass c9Cat 2 (fun _ => "h2") [("s", "d")]).files ∧
    (⟨2, "s", "d", "h2"⟩ : FileRow) ∈
      (hashingPass c9Cat 2 (fun _ => "h2") [("s", "d")]).files := by
  decide

lemma putFile_not_mem (c : Catalog) (r r' : FileRow) (hne : r ≠ r')
    (h : r ∉ c.files) : r ∉ (putFile c r').files := by
  simp only [putFile, List.mem_append, List.mem_filter, List.mem_singleton]
  rintro (⟨hmem, -⟩ | rfl)
  · exact h hmem
  · exact hne rfl

lemma putFile_removes (c : Catalog) (r r' : FileRow)
    (hs : r'.source = r.source) (hd : r'.dest = r.dest) (hne : r ≠ r') :
    r ∉ (putFile c r').files := by
  simp only [putFile, List.mem_append, List.mem_filter, List.mem_singleton]
  rintro (⟨-, hkeep⟩ | rfl)
  · simp [hs, hd] at hkeep
  · exact hne rfl

lemma hashingPass_not_mem (c : Catalog) (h : Nat) (digestOf : String → String)
    (pl : List (String × String)) (r : FileRow)
    (hid : r.backup_id ≠ h) (hout : r ∉ c.files) :
    r ∉ (hashingPass c h digestOf pl).files := by
  induction pl generalizing c with
  | nil => exact hout
  | cons p ps ih =>
      refine ih _ (putFile_not_mem c r ⟨h, p.1, p.2, digestOf p.1⟩ ?_ hout)
      intro hrfl
      exact hid (by rw [hrfl])

/-- Claim C9 (amended): a `FileRow` can be removed from the catalog by an
operation other than deletion of its owning backup: whenever a create
run's cataloguing pass for a different backup id `h` processes the same
`(source, dest)` pair, the row is replaced and no longer present
afterwards.  Backup deletion itself, by contrast, never changes the
`Files` table. -/
theorem fileRow_replacement_rule (c : Catalog) (h : Nat) (digestOf : String → String)
    (pl : List (String × String)) (r : FileRow)
    (hmem : (r.source, r.dest) ∈ pl) (hid : r.backup_id ≠ h) :
    r ∉ (hashingPass c h digestOf pl).files ∧
    ∀ id, (delete c id).1.files = c.files := by
  constructor
  · induction pl generalizing c with
    | nil => simp at hmem
    | cons p ps ih =>
        rcases List.mem_cons.mp hmem with hp | hp
        · have hne : r ≠ ⟨h, p.1, p.2, digestOf p.1⟩ := by
            intro hrfl
            exact hid (by rw [hrfl])
          have : r ∉ (putFile c ⟨h, p.1, p.2, digestOf p.1⟩).files := by
            apply putFile_removes
            · simp [← hp]
            · simp [← hp]
            · exact hne
          exact hashingPass_not_mem _ h digestOf ps r hid this
        · exact ih _ hp
  · intro id
    cases hsel : selectBackupDest c id <;> simp [delete, hsel, deleteEntry]

/-- Witness for `fileRow_replacement_rule` at a concrete catalog. -/
theorem fileRow_replacement_rule_witness :
    (("s", "d") ∈ [("s", "d")]) ∧ (1 : Nat) ≠ 2 ∧
    (⟨1, "s", "d", "h1"⟩ : FileRow) ∉
      (hashingPass c9Cat 2 (fun _ => "hx") [("s", "d")]).files ∧
    (delete c9Cat 7).1.files = c9Cat.files :=
  ⟨by decide, by decide,
   (fileRow_replacement_rule c9Cat 2 (fun _ => "hx") [("s", "d")]
      ⟨1, "s", "d", "h1"⟩ (by decide) (by decide)).1,
   (fileRow_replacement_rule c9Cat 2 (fun _ => "hx") [("s", "d")]
      ⟨1, "s", "d", "h1"⟩ (by decide) (by decide)).2 7⟩

/-! ## Helper lemmas about one `verify` loop iteration -/

lemma diskWrite_self (d : Disk) (p c : String) : diskWrite d p c p = some c := by
  simp [diskWrite]

lemma diskWrite_other (d : Disk) (p c q : String) (h : q ≠ p) :
    diskWrite d p c q = d q := by
  simp [diskWrite, h]

/-- Destination present and digest matching: only the counters move. -/
lemma verifyStep_match (hash : String → String) (st : VerifyState) (e : FileRow)
    (c : String) (hdest : st.disk e.dest = some c) (hh : hash c = e.sha256) :
    verifyStep hash st e =
      { st with verified := st.verified + 1, real_count := st.real_count + 1 } := by
  simp [verifyStep, hdest, verifyHashCheck, hh]

/-- Destination present, digest mismatching, source readable: the repair
copy runs. -/
lemma verifyStep_mismatch (hash : String → String) (st : VerifyState) (e : FileRow)
    (c cs : String) (hdest : st.disk e.dest = some c) (hh : hash c ≠ e.sha256)
    (hsrc : st.disk e.source = some cs) :
    verifyStep hash st e =
      { st with
        disk := diskWrite st.disk e.dest cs
        copied := st.copied + 1
        verified := st.verified + 1
        real_count := st.real_count + 1 } := by
  simp [verifyStep, hdest, verifyHashCheck, hh, hsrc]

/-- Destination present, digest mismatching, source unreadable: the repair
copy fails, one error is recorded. -/
lemma verifyStep_mismatch_nosrc (hash : String → String) (st : VerifyState) (e : FileRow)
    (c : String) (hdest : st.disk e.dest = some c) (hh : hash c ≠ e.sha256)
    (hsrc : st.disk e.source = none) :
    verifyStep hash st e =
      { st with
        error_list := st.error_list ++ ["copy failed"]
        real_count := st.real_count + 1 } := by
  simp [verifyStep, hdest, verifyHashCheck, hh, hsrc]

/-- Destination and source both absent: the recovery copy fails, one error
is recorded. -/
lemma verifyStep_absent_nosrc (hash : String → String) (st : VerifyState) (e : FileRow)
    (hdest : st.disk e.dest = none) (hsrc : st.disk e.source = none) :
    verifyStep hash st e =
      { st with
        error_list := st.error_list ++ ["copy failed"]
        real_count := st.real_count + 1 } := by
  simp [verifyStep, hdest, hsrc]

/-- Destination absent, source readable: the recovery copy runs and the
destination ends up holding the source content (a second copy of the same
content may follow when the catalogued digest also mismatches). -/
lemma verifyStep_absent_src (hash : String → String) (st : VerifyState) (e : FileRow)
    (cs : String) (hdest : st.disk e.dest = none) (hsrc : st.disk e.source = some cs) :
    (verifyStep hash st e).disk e.dest = some cs ∧
    (verifyStep hash st e).copied ≥ st.copied + 1 := by
  have hsrc2 : (diskWrite st.disk e.dest cs) e.source = some cs := by
    by_cases hq : e.source = e.dest
    · rw [hq, diskWrite_self]
    · rw [diskWrite_other _ _ _ _ hq, hsrc]
  by_cases hh : hash cs = e.sha256
  · simp [verifyStep, hdest, hsrc, verifyHashCheck, hh, diskWrite_self]
  · simp [verifyStep, hdest, hsrc, verifyHashCheck, hh, hsrc2, diskWrite_self]

/-- A step never touches the disk outside the row's destination path. -/
lemma verifyStep_disk_other (hash : String → String) (st : VerifyState) (e : FileRow)
    (p : String) (hp : p ≠ e.dest) : (verifyStep hash st e).disk p = st.disk p := by
  cases hdest : st.disk e.dest with
  | some c =>
      by_cases hh : hash c = e.sha256
      · rw [verifyStep_match hash st e c hdest hh]
      · cases hsrc : st.disk e.source with
        | none => rw [verifyStep_mismatch_nosrc hash st e c hdest hh hsrc]
        | some cs =>
            rw [verifyStep_mismatch hash st e c cs hdest hh hsrc]
            exact diskWrite_other _ _ _ _ hp
  | none =>
      cases hsrc : st.disk e.source with
      | none => rw [verifyStep_absent_nosrc hash st e hdest hsrc]
      | some cs =>
          have hsrc2 : (diskWrite st.disk e.dest cs) e.source = some cs := by
            by_cases hq : e.source = e.dest
            · rw [hq, diskWrite_self]
            · rw [diskWrite_other _ _ _ _ hq, hsrc]
          by_cases hh : hash cs = e.sha256 <;>
            simp [verifyStep, hdest, hsrc, verifyHashCheck, hh, hsrc2,
              diskWrite_other _ _ _ _ hp]

lemma verifyList_disk_other (hash : String → String) :
    ∀ (es : List FileRow) (st : VerifyState) (p : String),
      p ∉ es.map FileRow.dest → (verifyList hash st es).disk p = st.disk p := by
  intro es
  induction es with
  | nil => intro st p _; rfl
  | cons a as ih =>
      intro st p hp
      have hpa : p ≠ a.dest := by
        intro hrfl
        exact hp (by simp [hrfl])
      have hpas : p ∉ as.map FileRow.dest := by
        intro hmem
        exact hp (by simp [hmem])
      calc (verifyList hash (verifyStep hash st a) as).disk p
          = (verifyStep hash st a).disk p := ih _ p hpas
        _ = st.disk p := verifyStep_disk_other hash st a p hpa

/-! ## Claim C10: the accounting invariant of `verify` -/

lemma verifyHashCheck_accounting (hash : String → String) (st : VerifyState)
    (e : FileRow) (c : String) :
    (verifyHashCheck hash st e c).real_count = st.real_count ∧
    (verifyHashCheck hash st e c).verified + (verifyHashCheck hash st e c).error_list.length
      = st.verified + st.error_list.length + 1 := by
  unfold verifyHashCheck
  split
  all_goals try split
  all_goals simp
  all_goals omega

lemma verifyStep_accounting (hash : String → String) (st : VerifyState) (e : FileRow) :
    (verifyStep hash st e).real_count = st.real_count + 1 ∧
    (verifyStep hash st e).verified + (verifyStep hash st e).error_list.length
      = st.verified + st.error_list.length + 1 := by
  cases hdest : st.disk e.dest with
  | some c =>
      have h := verifyHashCheck_accounting hash
        { st with real_count := st.real_count + 1 } e c
      simpa [verifyStep, hdest] using h
  | none =>
      cases hsrc : st.disk e.source with
      | none =>
          simp [verifyStep, hdest, hsrc]
          omega
      | some cs =>
          have h := verifyHashCheck_accounting hash
            { st with
              real_count := st.real_count + 1
              disk := diskWrite st.disk e.dest cs
              copied := st.copied + 1 } e cs
          simpa [verifyStep, hdest, hsrc] using h

lemma verifyList_accounting (hash : String → String) :
    ∀ (es : List FileRow) (st : VerifyState),
      (verifyList hash st es).real_count = st.real_count + es.length ∧
      (verifyList hash st es).verified + (verifyList hash st es).error_list.length
        = st.verified + st.error_list.length + es.length := by
  intro es
  induction es with
  | nil => intro st; simp [verifyList]
  | cons a as ih =>
      intro st
      have hstep := verifyStep_accounting hash st a
      have hrest := ih (verifyStep hash st a)
      constructor
      · rw [verifyList, hrest.1, hstep.1]
        simp only [List.length_cons]
        omega
      · rw [verifyList, hrest.2, hstep.2]
        simp only [List.length_cons]
        omega

/-- Claim C10: every row selected for the backup id contributes to
exactly one of the two final tallies — at completion `verified` plus the
length of `error_list` equals `real_count`, and `real_count` is the
number of rows iterated, so the printed summary is consistent. -/
theorem verify_accounting_invariant (c : Catalog) (id : Nat)
    (hash : String → String) (d : Disk) :
    (verifyRun c id hash d).1.verified + (verifyRun c id hash d).1.error_list.length
      = (verifyRun c id hash d).1.real_count ∧
    (verifyRun c id hash d).1.real_count = (listFilesQuery c id).length := by
  have h := verifyList_accounting hash (listFilesQuery c id) ⟨d, 0, 0, 0, []⟩
  simp only [verifyRun]
  simp at h
  constructor
  · rw [h.2, h.1]
  · rw [h.1]

/-! ## Claim C5: how the computed digest is compared

The comparison in `verify` (commands.rs:90) is
`if hash != entry.sha256`, a plain case-sensitive string comparison (the
one in `_copy`'s verification pass, main.rs:372, is the same).  Two hex
digests that differ only in letter case are *unequal* for it and trigger
a repair copy.  (In practice both sides are produced by the lowercase
`format!` hex formatter, so the case never actually differs.) -/

/-- The two strings agree up to letter case. -/
def caseInsensitiveEq (a b : String) : Prop :=
  a.data.map Char.toLower = b.data.map Char.toLower

instance (a b : String) : Decidable (caseInsensitiveEq a b) :=
  inferInstanceAs (Decidable (a.data.map Char.toLower = b.data.map Char.toLower))

def c5Cat : Catalog := ⟨[], [⟨1, "s", "t", "AB"⟩]⟩

def c5Disk : Disk := fun p =>
  if p = "s" then some "y" else if p = "t" then some "x" else none

/-- Claim C5, counterexample: the catalogued digest is `AB` and the
computed digest of the destination content is `ab` — the same hex digits,
differing only in case.  Verification does not treat them as equal: it
performs a repair copy. -/
theorem verify_digest_case_cx :
    caseInsensitiveEq ((fun _ => "ab") "x") "AB" ∧
    (verifyRun c5Cat 1 (fun _ => "ab") c5Disk).1.copied = 1 := by
  constructor
  · decide
  · decide

/-- Claim C5 (amended): the computed digest is compared to the catalogued
value with exact, case-sensitive string equality: whenever the two
strings differ at all — in particular when they differ only in letter
case — a repair copy is triggered (here with the source readable so the
copy goes through). -/
theorem verify_digest_exact_comparison (hash : String → String) (st : VerifyState)
    (e : FileRow) (c cs : String)
    (hdest : st.disk e.dest = some c)
    (_hcase : caseInsensitiveEq (hash c) e.sha256)
    (hne : hash c ≠ e.sha256)
    (hsrc : st.disk e.source = some cs) :
    (verifyStep hash st e).copied = st.copied + 1 := by
  rw [verifyStep_mismatch hash st e c cs hdest hne hsrc]

/-- Witness for `verify_digest_exact_comparison` at a concrete state. -/
theorem verify_digest_exact_comparison_witness :
    ((⟨c5Disk, 0, 0, 0, []⟩ : VerifyState).disk
        (⟨1, "s", "t", "AB"⟩ : FileRow).dest = some "x") ∧
    caseInsensitiveEq ((fun _ => "ab") "x") (⟨1, "s", "t", "AB"⟩ : FileRow).sha256 ∧
    ((fun _ => "ab") "x" ≠ (⟨1, "s", "t", "AB"⟩ : FileRow).sha256) ∧
    ((⟨c5Disk, 0, 0, 0, []⟩ : VerifyState).disk
        (⟨1, "s", "t", "AB"⟩ : FileRow).source = some "y") ∧
    (verifyStep (fun _ => "ab") ⟨c5Disk, 0, 0, 0, []⟩ ⟨1, "s", "t", "AB"⟩).copied = 0 + 1 :=
  ⟨by decide, by decide, by decide, by decide,
   verify_digest_exact_comparison (fun _ => "ab") ⟨c5Disk, 0, 0, 0, []⟩
     ⟨1, "s", "t", "AB"⟩ "x" "y" (by decide) (by decide) (by decide) (by decide)⟩

/-! ## Claim C6: what `verify` does to the catalog

`verify` (commands.rs:11-121) runs a single `SELECT` and no `INSERT`,
`UPDATE` or `DELETE`: the repair copy only rewrites the destination file
on disk, and the stored digest is left untouched — it does *not* get
overwritten to reflect the repaired destination content. -/

def c6Cat : Catalog := ⟨[], [⟨1, "s", "t", "zz"⟩]⟩

def c6Disk : Disk := fun p =>
  if p = "s" then some "a" else if p = "t" then some "b" else none

/-- Claim C6, counterexample: a mismatch triggers a repair copy
(`copied = 1`, the destination now holds the source content `a`), yet the
catalog comes back unchanged, its only record still carrying the digest
`zz` — which is not the digest of the destination content as of the
repair (`hash "a" = "a" ≠ "zz"`). -/
theorem verify_keeps_stale_digest_cx :
    (verifyRun c6Cat 1 id c6Disk).1.copied = 1 ∧
    (verifyRun c6Cat 1 id c6Disk).1.disk "t" = some "a" ∧
    (verifyRun c6Cat 1 id c6Disk).2 = c6Cat ∧
    c6Cat.files = [⟨1, "s", "t", "zz"⟩] ∧
    id "a" ≠ "zz" := by
  refine ⟨by decide, by decide, by decide, by decide, by decide⟩

/-- Claim C6 (amended): `verify` performs no catalog mutation at all —
for every catalog, backup id, digest function and disk, the catalog after
the run is exactly the catalog before it; a repair copy changes only the
destination file on disk. -/
theorem verify_no_catalog_mutation (c : Catalog) (id : Nat)
    (hash : String → String) (d : Disk) :
    (verifyRun c id hash d).2 = c := rfl

/-! ## Claim C8: idempotence of `verify`

Because `verify` never updates the catalog (claim C6), a record whose
digest matches neither the destination nor the source content is
re-copied on *every* run: two runs in succession, with nothing modified
between or outside them, still repair on the second run.  Idempotence
holds only when the catalogued digests agree with the source contents. -/

/-- Claim C8, counterexample: record `(1, s, t, "zz")`, source content
`a`, destination content `a`, digest function the identity.  The first
run re-copies (the computed digest `a` differs from the stale catalogued
`zz`), the copy rewrites `t` with the same content `a`, and the second
run — on a destination tree not modified between or outside the runs —
re-copies again: `copied = 1`, not `0`. -/
theorem verify_twice_stale_digest_cx :
    (verifyRun c6Cat 1 id ((verifyRun c6Cat 1 id c6Disk).1.disk)).1.copied = 1 := by
  decide

/-- A row the loop body leaves alone: the destination is present with a
matching digest, or whatever repair it would attempt fails because the
source is unreadable. -/
def Stable (hash : String → String) (d : Disk) (e : FileRow) : Prop :=
  match d e.dest with
  | some c => hash c = e.sha256 ∨ d e.source = none
  | none => d e.source = none

lemma stable_congr (hash : String → String) (d d' : Disk) (e : FileRow)
    (hdest : d' e.dest = d e.dest) (hsrc : d' e.source = d e.source)
    (h : Stable hash d e) : Stable hash d' e := by
  unfold Stable at h ⊢
  rw [hdest, hsrc]
  exact h

lemma verifyStep_stable_noop (hash : String → String) (st : VerifyState) (e : FileRow)
    (h : Stable hash st.disk e) :
    (verifyStep hash st e).disk = st.disk ∧ (verifyStep hash st e).copied = st.copied := by
  unfold Stable at h
  cases hdest : st.disk e.dest with
  | some c =>
      rw [hdest] at h
      rcases h with h | h
      · rw [verifyStep_match hash st e c hdest h]
        exact ⟨rfl, rfl⟩
      · by_cases hh : hash c = e.sha256
        · rw [verifyStep_match hash st e c hdest hh]
          exact ⟨rfl, rfl⟩
        · rw [verifyStep_mismatch_nosrc hash st e c hdest hh h]
          exact ⟨rfl, rfl⟩
  | none =>
      rw [hdest] at h
      rw [verifyStep_absent_nosrc hash st e hdest h]
      exact ⟨rfl, rfl⟩

lemma verifyList_stable_noop (hash : String → String) :
    ∀ (es : List FileRow) (st : VerifyState),
      (∀ e ∈ es, Stable hash st.disk e) →
      (verifyList hash st es).disk = st.disk ∧ (verifyList hash st es).copied = st.copied := by
  intro es
  induction es with
  | nil => intro st _; exact ⟨rfl, rfl⟩
  | cons a as ih =>
      intro st h
      have hstep := verifyStep_stable_noop hash st a (h a (List.mem_cons_self a as))
      have hrest := ih (verifyStep hash st a) (by
        intro e he
        rw [hstep.1]
        exact h e (List.mem_cons_of_mem a he))
      refine ⟨?_, ?_⟩
      · rw [verifyList, hrest.1, hstep.1]
      · rw [verifyList, hrest.2, hstep.2]

lemma verifyStep_makes_stable (hash : String → String) (st : VerifyState) (e : FileRow)
    (hsrcOK : ∀ cs, st.disk e.source = some cs → hash cs = e.sha256) :
    Stable hash (verifyStep hash st e).disk e := by
  cases hdest : st.disk e.dest with
  | some c =>
      by_cases hh : hash c = e.sha256
      · rw [verifyStep_match hash st e c hdest hh]
        unfold Stable
        rw [hdest]
        exact Or.inl hh
      · cases hsrc : st.disk e.source with
        | none =>
            rw [verifyStep_mismatch_nosrc hash st e c hdest hh hsrc]
            unfold Stable
            rw [hdest]
            exact Or.inr hsrc
        | some cs =>
            rw [verifyStep_mismatch hash st e c cs hdest hh hsrc]
            unfold Stable
            simp only [diskWrite_self]
            exact Or.inl (hsrcOK cs hsrc)
  | none =>
      cases hsrc : st.disk e.source with
      | none =>
          rw [verifyStep_absent_nosrc hash st e hdest hsrc]
          unfold Stable
          rw [hdest]
          exact hsrc
      | some cs =>
          have hcs : hash cs = e.sha256 := hsrcOK cs hsrc
          unfold Stable
          rw [(verifyStep_absent_src hash st e cs hdest hsrc).1]
          exact Or.inl hcs

/-- After one `verify` pass over rows whose destinations are pairwise
distinct, whose sources are not destinations, and whose catalogued
digests agree with their source contents, every row is stable. -/
lemma verifyList_postcondition (hash : String → String) :
    ∀ (es : List FileRow) (st : VerifyState),
      (es.map FileRow.dest).Nodup →
      (∀ e ∈ es, ∀ f ∈ es, e.source ≠ f.dest) →
      (∀ e ∈ es, ∀ cs, st.disk e.source = some cs → hash cs = e.sha256) →
      ∀ e ∈ es, Stable hash (verifyList hash st es).disk e := by
  intro es
  induction es with
  | nil => intro st _ _ _ e he; simp at he
  | cons a as ih =>
      intro st hnodup hcross hconsist e he
      have hnodup' : a.dest ∉ as.map FileRow.dest ∧ (as.map FileRow.dest).Nodup :=
        List.nodup_cons.mp hnodup
      rcases List.mem_cons.mp he with rfl | he'
      · -- the head row: made stable by its own step, untouched afterwards
        have hstable : Stable hash (verifyStep hash st e).disk e :=
          verifyStep_makes_stable hash st e
            (hconsist e (List.mem_cons_self e as))
        have hdestKeep :
            (verifyList hash (verifyStep hash st e) as).disk e.dest
              = (verifyStep hash st e).disk e.dest :=
          verifyList_disk_other hash as _ e.dest hnodup'.1
        have hsrcNotDest : e.source ∉ as.map FileRow.dest := by
          intro hmem
          rcases List.mem_map.mp hmem with ⟨f, hf, hfd⟩
          exact hcross e (List.mem_cons_self e as) f (List.mem_cons_of_mem e hf) hfd.symm
        have hsrcKeep :
            (verifyList hash (verifyStep hash st e) as).disk e.source
              = (verifyStep hash st e).disk e.source :=
          verifyList_disk_other hash as _ e.source hsrcNotDest
        rw [verifyList]
        exact stable_congr hash _ _ e hdestKeep hsrcKeep hstable
      · -- a tail row: apply the induction hypothesis after the head step
        have hsrcKeep : ∀ f ∈ as, (verifyStep hash st a).disk f.source = st.disk f.source := by
          intro f hf
          apply verifyStep_disk_other
          exact hcross f (List.mem_cons_of_mem a hf) a (List.mem_cons_self a as)
        rw [verifyList]
        refine ih (verifyStep hash st a) hnodup'.2 ?_ ?_ e he'
        · intro x hx y hy
          exact hcross x (List.mem_cons_of_mem a hx) y (List.mem_cons_of_mem a hy)
        · intro x hx cs hcs
          rw [hsrcKeep x hx] at hcs
          exact hconsist x (List.mem_cons_of_mem a hx) cs hcs

/-- Claim C8 (amended): `verify` is idempotent with respect to repairs
provided the catalogued digests are consistent with the source files —
when every selected row whose source is readable has its catalogued
digest equal to the digest of that source content, the rows' destination
paths are pairwise distinct and no row's source path is a row's
destination path, then a second run on the disk left by the first
performs zero repair copies.  (Without the consistency assumption the
claim fails, see the counterexample: the catalog is never updated, so a
stale digest is re-copied on every run.) -/
theorem verify_idempotent_on_consistent_catalog (c : Catalog) (id : Nat)
    (hash : String → String) (d : Disk)
    (hnodup : ((listFilesQuery c id).map FileRow.dest).Nodup)
    (hcross : ∀ e ∈ listFilesQuery c id, ∀ f ∈ listFilesQuery c id, e.source ≠ f.dest)
    (hconsist : ∀ e ∈ listFilesQuery c id, ∀ cs, d e.source = some cs → hash cs = e.sha256) :
    (verifyRun c id hash ((verifyRun c id hash d).1.disk)).1.copied = 0 := by
  have hpost :=
    verifyList_postcondition hash (listFilesQuery c id) ⟨d, 0, 0, 0, []⟩
      hnodup hcross hconsist
  have hsecond :=
    verifyList_stable_noop hash (listFilesQuery c id)
      ⟨(verifyList hash ⟨d, 0, 0, 0, []⟩ (listFilesQuery c id)).disk, 0, 0, 0, []⟩
      (by intro e he; exact hpost e he)
  exact hsecond.2

/-- Witness for `verify_idempotent_on_consistent_catalog`: one record
with a consistent digest and a tampered destination; the first run
repairs it, the second performs zero copies. -/
theorem verify_idempotent_witness :
    ((listFilesQuery ⟨[], [⟨1, "s", "t", "a"⟩]⟩ 1).map FileRow.dest).Nodup ∧
    (∀ e ∈ listFilesQuery ⟨[], [⟨1, "s", "t", "a"⟩]⟩ 1,
      ∀ f ∈ listFilesQuery ⟨[], [⟨1, "s", "t", "a"⟩]⟩ 1, e.source ≠ f.dest) ∧
    (verifyRun ⟨[], [⟨1, "s", "t", "a"⟩]⟩ 1 id
        ((verifyRun ⟨[], [⟨1, "s", "t", "a"⟩]⟩ 1 id c6Disk).1.disk)).1.copied = 0 :=
  ⟨by decide, by decide,
   verify_idempotent_on_consistent_catalog ⟨[], [⟨1, "s", "t", "a"⟩]⟩ 1 id c6Disk
     (by decide) (by decide)
     (by
       intro e he cs hcs
       rcases List.mem_singleton.mp (by simpa [listFilesQuery] using he) with rfl
       simp only [c6Disk] at hcs
       simp at hcs
       rw [← hcs]
       rfl)⟩

/-! ## Claim C4: repair behaviour and tamper detection -/

lemma verifyList_append (hash : String → String) :
    ∀ (xs ys : List FileRow) (st : VerifyState),
      verifyList hash st (xs ++ ys) = verifyList hash (verifyList hash st xs) ys := by
  intro xs
  induction xs with
  | nil => intro ys st; rfl
  | cons a as ih => intro ys st; rw [List.cons_append, verifyList, verifyList, ih]

lemma stable_of_match (hash : String → String) (d : Disk) (e : FileRow)
    (h : ∃ cf, d e.dest = some cf ∧ hash cf = e.sha256) : Stable hash d e := by
  obtain ⟨cf, h1, h2⟩ := h
  unfold Stable
  rw [h1]
  exact Or.inl h2

/-- Claim C4: behaviour of one `verify` iteration and the tamper-detection
scenario.  (1) Destination absent, source readable: the source is copied
over the destination and at least one repair is recorded.  (2) Destination
present with mismatching digest, source readable: exactly one repair copy
runs and the destination ends up holding the source content.
(3) Destination present with matching digest: no copy — only the
`verified` and `real_count` tallies move.  (4) Tamper detection: if every
catalogued row except one matches its destination content, and that one
row's destination content hashes differently from its catalogued digest
while its source hashes to exactly that digest, a full `verify` pass
reports exactly one repaired file and restores that destination to the
source content. -/
theorem verify_repairs_and_tamper_detection (hash : String → String)
    (st : VerifyState) (e : FileRow) (entries : List FileRow) (d : Disk)
    (e0 : FileRow) (c0 cs0 : String) :
    (st.disk e.dest = none → ∀ cs, st.disk e.source = some cs →
      (verifyStep hash st e).disk e.dest = some cs ∧
      (verifyStep hash st e).copied ≥ st.copied + 1) ∧
    (∀ c cs, st.disk e.dest = some c → hash c ≠ e.sha256 → st.disk e.source = some cs →
      (verifyStep hash st e).disk e.dest = some cs ∧
      (verifyStep hash st e).copied = st.copied + 1) ∧
    (∀ c, st.disk e.dest = some c → hash c = e.sha256 →
      verifyStep hash st e =
        { st with verified := st.verified + 1, real_count := st.real_count + 1 }) ∧
    ((entries.map FileRow.dest).Nodup → e0 ∈ entries →
      (∀ f ∈ entries, f.dest ≠ e0.dest → ∃ cf, d f.dest = some cf ∧ hash cf = f.sha256) →
      d e0.dest = some c0 → hash c0 ≠ e0.sha256 →
      d e0.source = some cs0 → hash cs0 = e0.sha256 →
      (verifyList hash ⟨d, 0, 0, 0, []⟩ entries).copied = 1 ∧
      (verifyList hash ⟨d, 0, 0, 0, []⟩ entries).disk e0.dest = some cs0) := by
  refine ⟨?_, ?_, ?_, ?_⟩
  · intro hdest cs hsrc
    exact verifyStep_absent_src hash st e cs hdest hsrc
  · intro c cs hdest hh hsrc
    rw [verifyStep_mismatch hash st e c cs hdest hh hsrc]
    exact ⟨diskWrite_self _ _ _, rfl⟩
  · intro c hdest hh
    exact verifyStep_match hash st e c hdest hh
  · intro hnodup he0 hmatch hd0 hh0 hs0 _hs0OK
    obtain ⟨l1, l2, rfl⟩ := List.append_of_mem he0
    have hnd : (l1.map FileRow.dest).Nodup ∧ (e0.dest :: l2.map FileRow.dest).Nodup ∧
        (l1.map FileRow.dest).Disjoint (e0.dest :: l2.map FileRow.dest) := by
      rw [List.map_append, List.map_cons] at hnodup
      exact List.nodup_append.mp hnodup
    have hne1 : ∀ f ∈ l1, f.dest ≠ e0.dest := by
      intro f hf hfeq
      exact hnd.2.2 (List.mem_map_of_mem FileRow.dest hf)
        (hfeq ▸ List.mem_cons_self e0.dest _)
    have hne2 : ∀ f ∈ l2, f.dest ≠ e0.dest := by
      intro f hf hfeq
      have := (List.nodup_cons.mp hnd.2.1).1
      exact this (hfeq ▸ List.mem_map_of_mem FileRow.dest hf)
    -- phase 1: the rows before the tampered one all match and do nothing
    have hphase1 :=
      verifyList_stable_noop hash l1 ⟨d, 0, 0, 0, []⟩ (by
        intro f hf
        exact stable_of_match hash d f
          (hmatch f (List.mem_append_left _ hf) (hne1 f hf)))
    set st1 := verifyList hash ⟨d, 0, 0, 0, []⟩ l1 with hst1def
    have hd1 : st1.disk = d := hphase1.1
    have hc1 : st1.copied = 0 := hphase1.2
    -- the tampered row: one repair copy
    have hstep := verifyStep_mismatch hash st1 e0 c0 cs0
      (by rw [hd1]; exact hd0) hh0 (by rw [hd1]; exact hs0)
    -- phase 2: the rows after it still match on the written disk
    have hphase2 :=
      verifyList_stable_noop hash l2 (verifyStep hash st1 e0) (by
        intro f hf
        apply stable_of_match hash _ f
        obtain ⟨cf, hcf1, hcf2⟩ :=
          hmatch f (List.mem_append_right _ (List.mem_cons_of_mem e0 hf)) (hne2 f hf)
        refine ⟨cf, ?_, hcf2⟩
        rw [hstep]
        simp only
        rw [diskWrite_other _ _ _ _ (hne2 f hf), hd1]
        exact hcf1)
    rw [verifyList_append, ← hst1def, verifyList]
    constructor
    · rw [hphase2.2, hstep]
      simp only
      rw [hc1]
    · rw [hphase2.1, hstep]
      simp only
      rw [diskWrite_self]

def c4Disk : Disk := fun p =>
  if p = "t1" then some "x" else if p = "t2" then some "y"
  else if p = "s2" then some "b" else none

/-- Witness for the tamper-detection part of
`verify_repairs_and_tamper_detection`: two catalogued rows, the second
one's destination tampered (`y` instead of content hashing to `b`);
the run repairs exactly that file. -/
theorem verify_repairs_and_tamper_detection_witness :
    (([⟨1, "s1", "t1", "x"⟩, ⟨1, "s2", "t2", "b"⟩] :
        List FileRow).map FileRow.dest).Nodup ∧
    (⟨1, "s2", "t2", "b"⟩ : FileRow) ∈
      ([⟨1, "s1", "t1", "x"⟩, ⟨1, "s2", "t2", "b"⟩] : List FileRow) ∧
    c4Disk "t2" = some "y" ∧ id "y" ≠ "b" ∧ c4Disk "s2" = some "b" ∧ id "b" = "b" ∧
    (verifyList id ⟨c4Disk, 0, 0, 0, []⟩
        [⟨1, "s1", "t1", "x"⟩, ⟨1, "s2", "t2", "b"⟩]).copied = 1 ∧
    (verifyList id ⟨c4Disk, 0, 0, 0, []⟩
        [⟨1, "s1", "t1", "x"⟩, ⟨1, "s2", "t2", "b"⟩]).disk "t2" = some "b" := by
  have h := (verify_repairs_and_tamper_detection id ⟨c4Disk, 0, 0, 0, []⟩
      ⟨1, "s1", "t1", "x"⟩ [⟨1, "s1", "t1", "x"⟩, ⟨1, "s2", "t2", "b"⟩]
      c4Disk ⟨1, "s2", "t2", "b"⟩ "y" "b").2.2.2
      (by decide) (by decide)
      (by
        intro f hf hne
        rcases List.mem_cons.mp hf with rfl | hf
        · exact ⟨"x", by decide, by decide⟩
        · rcases List.mem_cons.mp hf with rfl | hf
          · exact absurd rfl hne
          · simp at hf)
      (by decide) (by decide) (by decide) (by decide)
  exact ⟨by decide, by decide, by decide, by decide, by decide, by decide, h.1, h.2⟩

/-! ## Claim C7: sequential and parallel discovery agree

On a tree in which no directory open hits fd exhaustion (other open
errors are allowed — both strategies skip such a subtree), the sequential
work-queue walk and the parallel fan-out both discover exactly the
reachable files, so `total_count` and `total_size` of their conclusions
coincide. -/

lemma mtDiscover_spec (l : List FsEntry) :
    (mtDiscoverList l).count = (reachFilesList l).length ∧
    (mtDiscoverList l).sizeBytes = ((reachFilesList l).map Prod.snd).sum := by
  induction l using mtDiscoverList.induct with
  | case1 => simp [mtDiscoverList, reachFilesList]
  | case2 p s es ih =>
      simp [mtDiscoverList, reachFilesList, ih]
      omega
  | case3 p ds es ih1 ih2 =>
      simp [mtDiscoverList, reachFilesList, ih1, ih2]
  | case4 p e ds es ih => simp [mtDiscoverList, reachFilesList, ih]

/-- On fd-error-free stacks and listings, the sequential walk appends
exactly the reachable files to `fileList`, accumulates exactly their
sizes, and never touches `pathList` (the fallback never fires). -/
lemma seqGo_noFd_spec (stack : List (List FsEntry)) (cur : List FsEntry) (acc : SeqAcc) :
    (∀ l ∈ stack, noFdList l = true) → noFdList cur = true →
    (seqGo stack cur acc).fileList.length
      = acc.fileList.length + (reachFilesList cur).length
        + (stack.map (fun l => (reachFilesList l).length)).sum ∧
    (seqGo stack cur acc).sizeBytes
      = acc.sizeBytes + ((reachFilesList cur).map Prod.snd).sum
        + (stack.map (fun l => ((reachFilesList l).map Prod.snd).sum)).sum ∧
    (seqGo stack cur acc).pathList = acc.pathList := by
  induction stack, cur, acc using seqGo.induct with
  | case1 acc =>
      intro _ _
      simp [seqGo, reachFilesList]
  | case2 d rest acc ih =>
      intro h1 h2
      have hd : noFdList d = true := h1 d (List.mem_cons_self d rest)
      have h1' : ∀ l ∈ rest, noFdList l = true := fun l hl => h1 l (List.mem_cons_of_mem d hl)
      obtain ⟨i1, i2, i3⟩ := ih h1' hd
      rw [seqGo] at *
      refine ⟨?_, ?_, i3⟩
      · rw [i1]; simp [reachFilesList]; omega
      · rw [i2]; simp [reachFilesList]; omega
  | case3 stack p s rest acc ih =>
      intro h1 h2
      simp only [noFdList] at h2
      obtain ⟨i1, i2, i3⟩ := ih h1 h2
      rw [seqGo] at *
      refine ⟨?_, ?_, i3⟩
      · rw [i1]; simp [reachFilesList]; omega
      · rw [i2]; simp [reachFilesList]; omega
  | case4 stack p ds rest acc ih =>
      intro h1 h2
      simp only [noFdList, Bool.and_eq_true] at h2
      have h1' : ∀ l ∈ stack ++ [ds], noFdList l = true := by
        intro l hl
        rcases List.mem_append.mp hl with hl | hl
        · exact h1 l hl
        · rw [List.mem_singleton.mp hl]; exact h2.1
      obtain ⟨i1, i2, i3⟩ := ih h1' h2.2
      rw [seqGo] at *
      refine ⟨?_, ?_, i3⟩
      · rw [i1]; simp [reachFilesList]; omega
      · rw [i2]; simp [reachFilesList]; omega
  | case5 stack p ds rest acc ih =>
      intro h1 h2
      simp [noFdList] at h2
  | case6 stack p ds rest acc ih =>
      intro h1 h2
      simp only [noFdList, Bool.and_eq_true] at h2
      obtain ⟨i1, i2, i3⟩ := ih h1 h2.2
      rw [seqGo] at *
      refine ⟨?_, ?_, i3⟩
      · rw [i1]; simp [reachFilesList]
      · rw [i2]; simp [reachFilesList]

/-- Claim C7: for every directory tree (with directory opens free of
fd-exhaustion; other open failures are allowed), the sequential and the
parallel pipeline produce conclusions with identical `total_count` and
identical `total_size`. -/
theorem discovery_strategies_agree (root : List FsEntry) (h : noFdList root = true) :
    (singlethreadConclusion root).total_count = (multithreadConclusion root).total_count ∧
    (singlethreadConclusion root).total_size = (multithreadConclusion root).total_size := by
  have hseq := seqGo_noFd_spec [] root ⟨[], 0, []⟩ (by intro l hl; simp at hl) h
  have hmt := mtDiscover_spec root
  have hcount : (seqGo [] root ⟨[], 0, []⟩).fileList.length = (mtDiscoverList root).count := by
    rw [hseq.1, hmt.1]
    simp
  have hsize : (seqGo [] root ⟨[], 0, []⟩).sizeBytes = (mtDiscoverList root).sizeBytes := by
    rw [hseq.2.1, hmt.2]
    simp
  have hupd : FileSize.update ⟨0, 0, 0, (seqGo [] root ⟨[], 0, []⟩).sizeBytes⟩
      = FileSize.update ⟨0, 0, 0, (mtDiscoverList root).sizeBytes⟩ := by rw [hsize]
  exact ⟨hcount, hupd⟩

def c7Tree : List FsEntry :=
  [ .dir "a" none [.file "f" 2048], .file "g" 1, .dir "x" (some .other) [] ]

/-- Witness for `discovery_strategies_agree` on a small tree with a
subdirectory, a file and a directory whose open fails with a non-fd
error. -/
theorem discovery_strategies_agree_witness :
    noFdList c7Tree = true ∧
    (singlethreadConclusion c7Tree).total_count = (multithreadConclusion c7Tree).total_count ∧
    (singlethreadConclusion c7Tree).total_size = (multithreadConclusion c7Tree).total_size :=
  ⟨by simp [noFdList, c7Tree],
   (discovery_strategies_agree c7Tree (by simp [noFdList, c7Tree])).1,
   (discovery_strategies_agree c7Tree (by simp [noFdList, c7Tree])).2⟩

end Hardcpy
